import Mathlib

open List

/-!
Shallow embedding of the `hrf-universe-home-task` repository: the percentile-trimmed
"days to hire" statistics pipeline (`home_task/calculate_stats.py`) and the read-only
lookup endpoint (`home_task/main.py`).

Modelling conventions:
* Python/NumPy floating-point intermediates (`np.percentile`, `np.mean`) are embedded as
  exact rationals (`ℚ`); integer database values are `ℤ`.
* `Optional` columns are `Option`; SQL `NULL` equality follows the SQLAlchemy rendering
  (`== None` becomes `IS NULL`, an equality against a string never matches `NULL`).
* The database table of `DaysToHireStats` rows is a `List StatsRecord`; the primary-key
  upsert performed by `session.merge` replaces the row with the same `id` in place, or
  appends a fresh row.
* The paginated record source is a fixed list of job postings in a stable order, read
  through `offset`/`limit` slices exactly as `fetch_postings_chunk` does.
-/

/-- Truncation toward zero of a rational number: the behaviour of the Python `int()` cast
applied to the `numpy` floating-point results in `calculate_percentile_stats`. -/
def intTrunc (q : ℚ) : ℤ := if 0 ≤ q then ⌊q⌋ else ⌈q⌉

/-- `np.min` on a list of integers; `0` on the empty list (callers guard non-emptiness). -/
def listMin : List ℤ → ℤ
  | [] => 0
  | x :: xs => xs.foldl min x

/-- `np.max` on a list of integers; `0` on the empty list (callers guard non-emptiness). -/
def listMax : List ℤ → ℤ
  | [] => 0
  | x :: xs => xs.foldl max x

/-- `np.mean` on a list of integers, as an exact rational. -/
def ratMean (l : List ℤ) : ℚ := (l.sum : ℚ) / (l.length : ℚ)

/-- `np.percentile(values, p)` with the NumPy default linear-interpolation method:
the virtual rank is `p * (n - 1) / 100`; the result interpolates between the sorted
order statistics at the floor of the rank and at the next index (clipped to `n - 1`). -/
def percentile (values : List ℤ) (p : ℚ) : ℚ :=
  let s := List.insertionSort (· ≤ ·) values
  let n := values.length
  let r := p * ((n : ℚ) - 1) / 100
  let i := (⌊r⌋).toNat
  let j := min (i + 1) (n - 1)
  (s.getD i 0 : ℚ) + (r - (i : ℚ)) * ((s.getD j 0 : ℚ) - (s.getD i 0 : ℚ))

/-- The retention of `calculate_percentile_stats`: the input values (in input order)
lying inside the inclusive percentile band
`values[(values >= min_value) & (values <= max_value)]`. -/
def retained (values : List ℤ) (min_percentile max_percentile : ℚ) : List ℤ :=
  values.filter fun (v : ℤ) =>
    decide (percentile values min_percentile ≤ (v : ℚ)) &&
      decide ((v : ℚ) ≤ percentile values max_percentile)

/-- `calculate_percentile_stats` (`calculate_stats.py` lines 11-30): percentile-band
trimmed statistics. Returns `(min, max, mean cast to int, count)` over the values lying
inside the inclusive `[min_percentile, max_percentile]` band, or `(none, none, none, 0)`
when the input is empty or the retention is empty. -/
def calculate_percentile_stats (values : List ℤ) (min_percentile max_percentile : ℚ) :
    Option ℤ × Option ℤ × Option ℤ × ℕ :=
  if values = [] then (none, none, none, 0) else
  let filtered_values := retained values min_percentile max_percentile
  if filtered_values = [] then (none, none, none, 0)
  else (some (listMin filtered_values), some (listMax filtered_values),
        some (intTrunc (ratMean filtered_values)), filtered_values.length)

/-- Percentile exactly as the specification words it: the rank is `p/100 * (n-1)` and the
result interpolates between the adjacent sorted order statistics at `⌊rank⌋` and `⌊rank⌋+1`
(the latter read with the former as default when it falls past the end of the list). -/
def specPercentile (values : List ℤ) (p : ℚ) : ℚ :=
  let s := List.insertionSort (· ≤ ·) values
  let rank := p / 100 * ((values.length : ℚ) - 1)
  let k := (⌊rank⌋).toNat
  (s.getD k 0 : ℚ) + (rank - (k : ℚ)) * ((s.getD (k + 1) (s.getD k 0) : ℚ) - (s.getD k 0 : ℚ))

/-- A `job_posting` row as read by the stats job: grouping keys plus the optional
`days_to_hire` value (`NULL` rows are filtered out by the SQL queries). -/
structure JobPosting where
  standard_job_id : String
  country_code : Option String
  days_to_hire : Option ℤ
deriving DecidableEq

/-- A `days_to_hire_stats` row (`DaysToHireStats`).  The three statistics columns are
nullable; `id` is the primary key. -/
structure StatsRecord where
  id : String
  standard_job_id : String
  country_code : Option String
  min_days_to_hire : Option ℤ
  max_days_to_hire : Option ℤ
  avg_days_to_hire : Option ℤ
  job_posting_count : ℕ
deriving DecidableEq

/-- The Python idiom `country_code or world`: any falsy value (`None` or the empty string)
becomes `"world"`. -/
def orWorld : Option String → String
  | some c => if c = "" then "world" else c
  | none => "world"

/-- The deterministic record id: `standard_job_id`, an underscore, and the country code
(falling back to `"world"`). -/
def mkId (k : String × Option String) : String := k.1 ++ "_" ++ orWorld k.2

/-- The rows with a non-`NULL` `days_to_hire`, in the stable order of the record source:
the population counted by `get_total_postings_count` and paged by `fetch_postings_chunk`. -/
def eligible (postings : List JobPosting) : List JobPosting :=
  postings.filter fun p => p.days_to_hire.isSome

/-- `fetch_postings_chunk`: one `offset`/`limit` page over the eligible rows. -/
def fetch_postings_chunk (postings : List JobPosting) (offset limit : ℕ) : List JobPosting :=
  ((eligible postings).drop offset).take limit

/-- Append `d` to the bucket of key `k`, creating the bucket at the end on first sight:
the behaviour of the Python `dict` (insertion-ordered) of lists in `calculate_stats`. -/
def insertVal (m : List ((String × Option String) × List ℤ)) (k : String × Option String)
    (d : ℤ) : List ((String × Option String) × List ℤ) :=
  match m with
  | [] => [(k, [d])]
  | (k', vs) :: rest => if k' = k then (k', vs ++ [d]) :: rest else (k', vs) :: insertVal rest k d

/-- Add one fetched posting to the grouped mapping (`calculate_stats` lines 60-64).
Fetched postings always carry a value; a `NULL` row (unreachable through the SQL filter)
is left ungrouped. -/
def addPosting (m : List ((String × Option String) × List ℤ)) (p : JobPosting) :
    List ((String × Option String) × List ℤ) :=
  match p.days_to_hire with
  | some d => insertVal m (p.standard_job_id, p.country_code) d
  | none => m

/-- The page offsets `range(0, total_postings, chunk_size)` visited by `calculate_stats`. -/
def chunkOffsets (total chunk_size : ℕ) : List ℕ :=
  (List.range ((total + chunk_size - 1) / chunk_size)).map (fun i => i * chunk_size)

/-- The grouped mapping accumulated by the chunked loop of `calculate_stats` (lines 52-64):
pages are fetched at successive offsets and every posting of every page is bucketed. -/
def groupAll (postings : List JobPosting) (chunk_size : ℕ) :
    List ((String × Option String) × List ℤ) :=
  (chunkOffsets (eligible postings).length chunk_size).foldl
    (fun m o => (fetch_postings_chunk postings o chunk_size).foldl addPosting m) []

/-- Grouping the whole eligible population in one pass (no pagination): the reference
point the chunked loop is compared against. -/
def groupList (postings : List JobPosting) : List ((String × Option String) × List ℤ) :=
  (eligible postings).foldl addPosting []

/-- The `StatsRecord` built for one group (`calculate_stats` lines 74-82). -/
def statsRecordOf (k : String × Option String) (stats : Option ℤ × Option ℤ × Option ℤ × ℕ) :
    StatsRecord :=
  ⟨mkId k, k.1, k.2, stats.1, stats.2.1, stats.2.2.1, stats.2.2.2⟩

/-- The records `calculate_stats` persists: one per group whose trimmed count reaches
`min_job_postings`, in group order (lines 67-84). -/
def recordsToWrite (m : List ((String × Option String) × List ℤ)) (min_job_postings : ℤ) :
    List StatsRecord :=
  m.filterMap fun kv =>
    let stats := calculate_percentile_stats kv.2 10 90
    if (stats.2.2.2 : ℤ) < min_job_postings then none
    else some (statsRecordOf kv.1 stats)

/-- `session.merge` on a `DaysToHireStats` row: replace the row carrying the same primary
key `id` in place, or insert the row at the end when the key is absent. -/
def upsert (s : List StatsRecord) (r : StatsRecord) : List StatsRecord :=
  if r.id ∈ s.map (fun x => x.id) then s.map (fun x => if x.id = r.id then r else x)
  else s ++ [r]

/-- `calculate_stats` (lines 50-86): group the paginated record source, trim every group,
and upsert one record per group meeting the threshold into the stats table `store`. -/
def calculate_stats (store : List StatsRecord) (postings : List JobPosting)
    (min_job_postings : ℤ) (chunk_size : ℕ) : List StatsRecord :=
  (recordsToWrite (groupAll postings chunk_size) min_job_postings).foldl upsert store

/-- Outcome of the `/days-to-hire-stats` endpoint, up to response serialization:
the selected row, a 404 with its detail message, or the SQLAlchemy
`MultipleResultsFound` error from `scalar_one_or_none`. -/
inductive LookupResult where
  | found (r : StatsRecord)
  | notFound (detail : String)
  | multipleResults
deriving DecidableEq

/-- The Python guard `country_code if country_code else None` (`main.py` line 38): a falsy
country code (absent or empty string) is replaced by `None`. -/
def normCC : Option String → Option String
  | some c => if c = "" then none else some c
  | none => none

/-- `get_days_to_hire_stats` (`main.py` lines 30-47): point lookup of the stats row whose
`standard_job_id` matches and whose `country_code` equals the normalized query value
(SQL `== None` is `IS NULL`, so only `NULL` rows match an absent country). -/
def get_days_to_hire_stats (store : List StatsRecord) (standard_job_id : String)
    (country_code : Option String) : LookupResult :=
  match store.filter fun r =>
    decide (r.standard_job_id = standard_job_id) &&
      decide (r.country_code = normCC country_code) with
  | [] => .notFound ("No statistics found for standard_job_id=" ++ standard_job_id ++
      " and country_code=" ++ orWorld country_code)
  | [r] => .found r
  | _ => .multipleResults

/-- All duration values stored in the grouped mapping, bucket by bucket. -/
def valuesOf (m : List ((String × Option String) × List ℤ)) : List ℤ :=
  (m.map fun kv => kv.2).flatten

/-- The duration values carried by a list of postings (`NULL`s skipped). -/
def durations (l : List JobPosting) : List ℤ :=
  l.filterMap fun p => p.days_to_hire

/-- The keys of the grouped mapping, in insertion order. -/
def keysOf (m : List ((String × Option String) × List ℤ)) : List (String × Option String) :=
  m.map fun kv => kv.1

/-- The last record among `recs` carrying id `i`, if any. -/
def lastWrite (recs : List StatsRecord) (i : String) : Option StatsRecord :=
  recs.foldl (fun acc r => if r.id = i then some r else acc) none

/-- Replace `x` by the last written record of the same id, when one exists. -/
def patch (recs : List StatsRecord) (x : StatsRecord) : StatsRecord :=
  (lastWrite recs x.id).getD x

/-- The rows appended (rather than overwritten) by folding `upsert` over `recs` into a
store owning the ids `own`: one row per first occurrence of a fresh id, already carrying
its final (last-written) content. -/
def newOnes (own : List String) : List StatsRecord → List StatsRecord
  | [] => []
  | r :: rs =>
    if r.id ∈ own then newOnes own rs
    else patch rs r :: newOnes (own ++ [r.id]) rs

/-- The end-to-end example of the spec: ten `SJ1`/world postings, one outlier. -/
def c2Postings : List JobPosting :=
  [⟨"SJ1", none, some 10⟩, ⟨"SJ1", none, some 12⟩, ⟨"SJ1", none, some 11⟩,
   ⟨"SJ1", none, some 13⟩, ⟨"SJ1", none, some 9⟩, ⟨"SJ1", none, some 14⟩,
   ⟨"SJ1", none, some 10⟩, ⟨"SJ1", none, some 12⟩, ⟨"SJ1", none, some 11⟩,
   ⟨"SJ1", none, some 100⟩]

/-- The record the pipeline actually persists on the example dataset. -/
def c2Record : StatsRecord := ⟨"SJ1_world", "SJ1", none, some 10, some 14, some 11, 8⟩

/-- Two postings whose percentile band is empty: values `0` and `10`. -/
def c7Postings : List JobPosting := [⟨"SJ1", none, some 0⟩, ⟨"SJ1", none, some 10⟩]

/-- The all-null record persisted for a zero-retention group once the threshold is `0`. -/
def c7Record : StatsRecord := ⟨"SJ1_world", "SJ1", none, none, none, none, 0⟩

/-! Basic facts about the aggregates used by the trimmer -/

lemma foldl_min_le_init (xs : List ℤ) (a : ℤ) : xs.foldl min a ≤ a := by
  induction xs generalizing a with
  | nil => simp
  | cons x xs ih => exact le_trans (ih (min a x)) (min_le_left a x)

lemma foldl_min_le_mem {v : ℤ} (xs : List ℤ) (a : ℤ) (h : v ∈ xs) : xs.foldl min a ≤ v := by
  induction xs generalizing a with
  | nil => cases h
  | cons x xs ih =>
    rcases List.mem_cons.mp h with rfl | h
    · exact le_trans (foldl_min_le_init xs (min a v)) (min_le_right a v)
    · exact ih (min a x) h

lemma listMin_le {l : List ℤ} {v : ℤ} (h : v ∈ l) : listMin l ≤ v := by
  cases l with
  | nil => cases h
  | cons x xs =>
    rcases List.mem_cons.mp h with rfl | h
    · exact foldl_min_le_init xs v
    · exact foldl_min_le_mem xs x h

lemma foldl_max_init_le (xs : List ℤ) (a : ℤ) : a ≤ xs.foldl max a := by
  induction xs generalizing a with
  | nil => simp
  | cons x xs ih => exact le_trans (le_max_left a x) (ih (max a x))

lemma foldl_max_mem_le {v : ℤ} (xs : List ℤ) (a : ℤ) (h : v ∈ xs) : v ≤ xs.foldl max a := by
  induction xs generalizing a with
  | nil => cases h
  | cons x xs ih =>
    rcases List.mem_cons.mp h with rfl | h
    · exact le_trans (le_max_right a v) (foldl_max_init_le xs (max a v))
    · exact ih (max a x) h

lemma le_listMax {l : List ℤ} {v : ℤ} (h : v ∈ l) : v ≤ listMax l := by
  cases l with
  | nil => cases h
  | cons x xs =>
    rcases List.mem_cons.mp h with rfl | h
    · exact foldl_max_init_le xs v
    · exact foldl_max_mem_le xs x h

lemma mul_length_le_sum {l : List ℤ} {m : ℤ} (h : ∀ v ∈ l, m ≤ v) :
    m * (l.length : ℤ) ≤ l.sum := by
  induction l with
  | nil => simp
  | cons x xs ih =>
    have hx := h x (List.mem_cons_self x xs)
    have hxs := ih fun v hv => h v (List.mem_cons_of_mem x hv)
    simp only [List.length_cons, List.sum_cons]
    push_cast
    nlinarith

lemma sum_le_mul_length {l : List ℤ} {m : ℤ} (h : ∀ v ∈ l, v ≤ m) :
    l.sum ≤ m * (l.length : ℤ) := by
  induction l with
  | nil => simp
  | cons x xs ih =>
    have hx := h x (List.mem_cons_self x xs)
    have hxs := ih fun v hv => h v (List.mem_cons_of_mem x hv)
    simp only [List.length_cons, List.sum_cons]
    push_cast
    nlinarith

lemma le_ratMean {l : List ℤ} {m : ℤ} (hl : l ≠ []) (h : ∀ v ∈ l, m ≤ v) :
    (m : ℚ) ≤ ratMean l := by
  have hpos : (0 : ℚ) < (l.length : ℚ) := by
    exact_mod_cast List.length_pos.mpr hl
  rw [ratMean, le_div_iff₀ hpos]
  exact_mod_cast mul_length_le_sum h

lemma ratMean_le {l : List ℤ} {m : ℤ} (hl : l ≠ []) (h : ∀ v ∈ l, v ≤ m) :
    ratMean l ≤ (m : ℚ) := by
  have hpos : (0 : ℚ) < (l.length : ℚ) := by
    exact_mod_cast List.length_pos.mpr hl
  rw [ratMean, div_le_iff₀ hpos]
  exact_mod_cast sum_le_mul_length h

lemma le_intTrunc {a : ℤ} {q : ℚ} (h : (a : ℚ) ≤ q) : a ≤ intTrunc q := by
  unfold intTrunc
  split
  · exact Int.le_floor.mpr h
  · exact_mod_cast le_trans h (Int.le_ceil q)

lemma intTrunc_le {b : ℤ} {q : ℚ} (h : q ≤ (b : ℚ)) : intTrunc q ≤ b := by
  unfold intTrunc
  split
  · exact_mod_cast le_trans (Int.floor_le q) h
  · exact Int.ceil_le.mpr h

/-! Equations and consequences for `calculate_percentile_stats` -/

lemma cps_of_empty : calculate_percentile_stats [] pmin pmax = (none, none, none, 0) := by
  simp [calculate_percentile_stats]

lemma cps_of_retained_nil {values : List ℤ} {pmin pmax : ℚ}
    (hf : retained values pmin pmax = []) :
    calculate_percentile_stats values pmin pmax = (none, none, none, 0) := by
  rcases eq_or_ne values [] with rfl | hl
  · exact cps_of_empty
  · simp [calculate_percentile_stats, if_neg hl, hf]

lemma cps_of_retained_ne {values : List ℤ} {pmin pmax : ℚ}
    (hf : retained values pmin pmax ≠ []) :
    calculate_percentile_stats values pmin pmax =
      (some (listMin (retained values pmin pmax)), some (listMax (retained values pmin pmax)),
       some (intTrunc (ratMean (retained values pmin pmax))),
       (retained values pmin pmax).length) := by
  have hl : values ≠ [] := by
    intro h
    subst h
    simp [retained] at hf
  simp [calculate_percentile_stats, if_neg hl, if_neg hf]

lemma cps_sentinel_iff (values : List ℤ) (pmin pmax : ℚ) :
    calculate_percentile_stats values pmin pmax = (none, none, none, 0) ↔
      values = [] ∨ retained values pmin pmax = [] := by
  constructor
  · intro h
    by_contra hcon
    push_neg at hcon
    rw [cps_of_retained_ne hcon.2] at h
    simp at h
  · rintro (rfl | hf)
    · exact cps_of_empty
    · exact cps_of_retained_nil hf

lemma cps_some {values : List ℤ} {pmin pmax : ℚ} {a b c : ℤ} {n : ℕ}
    (h : calculate_percentile_stats values pmin pmax = (some a, some b, some c, n)) :
    a ≤ c ∧ c ≤ b ∧ 0 < n ∧ n ≤ values.length := by
  by_cases hf : retained values pmin pmax = []
  · rw [cps_of_retained_nil hf] at h
    simp at h
  · rw [cps_of_retained_ne hf] at h
    simp only [Prod.mk.injEq, Option.some.injEq] at h
    obtain ⟨ha, hb, hc, hn⟩ := h
    subst ha hb hc hn
    refine ⟨le_intTrunc (le_ratMean hf fun v hv => listMin_le hv),
      intTrunc_le (ratMean_le hf fun v hv => le_listMax hv),
      List.length_pos.mpr hf, ?_⟩
    exact List.length_filter_le _ _

/-! The clipped-index interpolation agrees with the wording of the spec -/

lemma interp_diff_eq {s : List ℤ} {n i : ℕ} (hslen : s.length = n) (h1 : 1 ≤ n)
    (hin : i ≤ n - 1) :
    ((s.getD (min (i + 1) (n - 1)) 0 : ℤ) : ℚ) - ((s.getD i 0 : ℤ) : ℚ) =
      ((s.getD (i + 1) (s.getD i 0) : ℤ) : ℚ) - ((s.getD i 0 : ℤ) : ℚ) := by
  by_cases hc : i + 1 ≤ n - 1
  · have h1' : i + 1 < s.length := by omega
    rw [min_eq_left hc, List.getD_eq_getElem s 0 h1', List.getD_eq_getElem s _ h1']
  · have hieq : i = n - 1 := by omega
    have hge : s.length ≤ i + 1 := by omega
    rw [min_eq_right (by omega : n - 1 ≤ i + 1), List.getD_eq_default s _ hge, ← hieq]

lemma percentile_eq_spec {l : List ℤ} {p : ℚ} (hl : l ≠ []) (h0 : 0 ≤ p) (h100 : p ≤ 100) :
    percentile l p = specPercentile l p := by
  have hn1 : 1 ≤ l.length := List.length_pos.mpr hl
  simp only [percentile, specPercentile]
  rw [show p / 100 * ((l.length : ℚ) - 1) = p * ((l.length : ℚ) - 1) / 100 from by ring]
  have hr0 : 0 ≤ p * ((l.length : ℚ) - 1) / 100 := by
    apply div_nonneg _ (by norm_num)
    apply mul_nonneg h0
    have : (1 : ℚ) ≤ (l.length : ℚ) := by exact_mod_cast hn1
    linarith
  have hrn : p * ((l.length : ℚ) - 1) / 100 ≤ (l.length : ℚ) - 1 := by
    rw [div_le_iff₀ (by norm_num : (0 : ℚ) < 100)]
    have hge : (0 : ℚ) ≤ (l.length : ℚ) - 1 := by
      have : (1 : ℚ) ≤ (l.length : ℚ) := by exact_mod_cast hn1
      linarith
    nlinarith
  have hfl0 : 0 ≤ ⌊p * ((l.length : ℚ) - 1) / 100⌋ := Int.floor_nonneg.mpr hr0
  have hfln : ⌊p * ((l.length : ℚ) - 1) / 100⌋ ≤ (l.length : ℤ) - 1 := by
    have hcast : ((l.length : ℤ) - 1 : ℤ) = ⌊(((l.length : ℤ) - 1 : ℤ) : ℚ)⌋ :=
      (Int.floor_intCast _).symm
    rw [hcast]
    apply Int.floor_le_floor
    push_cast
    exact hrn
  have hin : (⌊p * ((l.length : ℚ) - 1) / 100⌋).toNat ≤ l.length - 1 := by omega
  rw [interp_diff_eq (List.length_insertionSort _ l) hn1 hin]

/-! Pagination covers the eligible population exactly -/

lemma chunks_flatten {α : Type} (c : ℕ) (hc : 0 < c) (l : List α) :
    ((chunkOffsets l.length c).map fun o => (l.drop o).take c).flatten = l := by
  rcases eq_or_ne l [] with rfl | hl
  · have h0 : (0 + c - 1) / c = 0 := Nat.div_eq_of_lt (by omega)
    simp [chunkOffsets, h0]
  · have hpos : 0 < l.length := List.length_pos.mpr hl
    by_cases hlc : l.length ≤ c
    · have h1 : (l.length + c - 1) / c = 1 := by
        have he : l.length + c - 1 = (l.length - 1) + c := by omega
        rw [he, Nat.add_div_right _ hc, Nat.div_eq_of_lt (by omega)]
      simp [chunkOffsets, h1, (by decide : List.range 1 = [0]), List.take_of_length_le hlc]
    · have hcl : c < l.length := by omega
      have hstep : (l.length + c - 1) / c = ((l.drop c).length + c - 1) / c + 1 := by
        rw [List.length_drop]
        have he : l.length + c - 1 = (l.length - c + c - 1) + c := by omega
        rw [he, Nat.add_div_right _ hc]
      have htail : ∀ o : ℕ, l.drop (c + o) = (l.drop c).drop o := by
        intro o
        rw [List.drop_drop, Nat.add_comm]
      have hrec := chunks_flatten c hc (l.drop c)
      rw [chunkOffsets, hstep, List.range_succ_eq_map, List.map_cons, List.map_cons,
        List.map_map, List.map_map, List.flatten_cons, Nat.zero_mul, List.drop_zero]
      have hmap : (List.range (((l.drop c).length + c - 1) / c)).map
          (((fun o => (l.drop o).take c) ∘ fun i => i * c) ∘ Nat.succ) =
          (chunkOffsets (l.drop c).length c).map fun o => ((l.drop c).drop o).take c := by
        rw [chunkOffsets, List.map_map]
        apply List.map_congr_left
        intro i _
        simp only [Function.comp_apply]
        rw [show Nat.succ i * c = c + i * c from by rw [Nat.succ_mul]; omega, htail]
      rw [hmap, hrec, List.take_append_drop]
termination_by l.length
decreasing_by simpa [List.length_drop] using by omega

lemma foldl_chunkOffsets {α β : Type} (f : β → α → β) (c : ℕ) (hc : 0 < c) (l : List α)
    (init : β) :
    (chunkOffsets l.length c).foldl (fun b o => ((l.drop o).take c).foldl f b) init =
      l.foldl f init := by
  conv_rhs => rw [← chunks_flatten c hc l]
  rw [List.foldl_flatten, List.foldl_map]

lemma groupAll_eq_groupList {postings : List JobPosting} {c : ℕ} (hc : 0 < c) :
    groupAll postings c = groupList postings := by
  unfold groupAll groupList fetch_postings_chunk
  exact foldl_chunkOffsets addPosting c hc (eligible postings) []

/-! The grouped mapping holds exactly the eligible durations -/

lemma valuesOf_insertVal (m : List ((String × Option String) × List ℤ)) (k : String × Option String)
    (d : ℤ) : valuesOf (insertVal m k d) ~ valuesOf m ++ [d] := by
  induction m with
  | nil => simp [insertVal, valuesOf]
  | cons kv rest ih =>
    obtain ⟨k', vs⟩ := kv
    by_cases hk : k' = k
    · simp only [insertVal, if_pos hk, valuesOf, List.map_cons, List.flatten_cons]
      calc (vs ++ [d]) ++ (rest.map fun kv => kv.2).flatten
          = vs ++ ([d] ++ (rest.map fun kv => kv.2).flatten) := by
            rw [List.append_assoc]
        _ ~ vs ++ ((rest.map fun kv => kv.2).flatten ++ [d]) :=
            (List.perm_append_comm).append_left vs
        _ = (vs ++ (rest.map fun kv => kv.2).flatten) ++ [d] := by
            rw [List.append_assoc]
    · simp only [insertVal, if_neg hk, valuesOf, List.map_cons, List.flatten_cons]
      calc vs ++ valuesOf (insertVal rest k d)
          ~ vs ++ (valuesOf rest ++ [d]) := (ih).append_left vs
        _ = (vs ++ valuesOf rest) ++ [d] := by rw [List.append_assoc]

lemma valuesOf_addPosting (m : List ((String × Option String) × List ℤ)) (p : JobPosting) :
    valuesOf (addPosting m p) ~ valuesOf m ++ p.days_to_hire.toList := by
  cases hd : p.days_to_hire with
  | none => simp [addPosting, hd]
  | some d => simpa [addPosting, hd] using valuesOf_insertVal m (p.standard_job_id, p.country_code) d

lemma valuesOf_foldl (l : List JobPosting) :
    ∀ m, valuesOf (l.foldl addPosting m) ~ valuesOf m ++ durations l := by
  induction l with
  | nil => intro m; simp [durations]
  | cons p l ih =>
    intro m
    have h1 := ih (addPosting m p)
    have h2 := (valuesOf_addPosting m p).append_right (durations l)
    calc valuesOf ((p :: l).foldl addPosting m)
        = valuesOf (l.foldl addPosting (addPosting m p)) := rfl
      _ ~ valuesOf (addPosting m p) ++ durations l := h1
      _ ~ (valuesOf m ++ p.days_to_hire.toList) ++ durations l := h2
      _ = valuesOf m ++ (p.days_to_hire.toList ++ durations l) := by rw [List.append_assoc]
      _ = valuesOf m ++ durations (p :: l) := by
          cases hd : p.days_to_hire <;> simp [durations, hd]

lemma valuesOf_groupList (postings : List JobPosting) :
    valuesOf (groupList postings) ~ durations (eligible postings) := by
  simpa [valuesOf] using valuesOf_foldl (eligible postings) []

/-! Group keys stay distinct -/

lemma keysOf_cons (kv : (String × Option String) × List ℤ)
    (m : List ((String × Option String) × List ℤ)) : keysOf (kv :: m) = kv.1 :: keysOf m := rfl

lemma keysOf_insertVal (m : List ((String × Option String) × List ℤ))
    (k : String × Option String) (d : ℤ) :
    keysOf (insertVal m k d) = if k ∈ keysOf m then keysOf m else keysOf m ++ [k] := by
  induction m with
  | nil => simp [insertVal, keysOf]
  | cons kv rest ih =>
    obtain ⟨k', vs⟩ := kv
    by_cases hk : k' = k
    · subst hk
      simp [insertVal, keysOf_cons, List.mem_cons]
    · simp only [insertVal, if_neg hk, keysOf_cons, ih]
      by_cases hmem : k ∈ keysOf rest
      · rw [if_pos hmem, if_pos (List.mem_cons_of_mem _ hmem)]
      · rw [if_neg hmem,
          if_neg (by simp only [List.mem_cons]; push_neg; exact ⟨Ne.symm hk, hmem⟩),
          List.cons_append]

lemma nodup_keysOf_insertVal {m : List ((String × Option String) × List ℤ)}
    {k : String × Option String} {d : ℤ} (h : (keysOf m).Nodup) :
    (keysOf (insertVal m k d)).Nodup := by
  rw [keysOf_insertVal]
  by_cases hmem : k ∈ keysOf m
  · rwa [if_pos hmem]
  · rw [if_neg hmem]
    simpa [List.nodup_append] using ⟨h, hmem⟩

lemma nodup_keysOf_addPosting {m : List ((String × Option String) × List ℤ)} {p : JobPosting}
    (h : (keysOf m).Nodup) : (keysOf (addPosting m p)).Nodup := by
  cases hd : p.days_to_hire with
  | none => simpa [addPosting, hd] using h
  | some d =>
    simp only [addPosting, hd]
    exact nodup_keysOf_insertVal h

lemma nodup_keysOf_foldl (l : List JobPosting) :
    ∀ m, (keysOf m).Nodup → (keysOf (l.foldl addPosting m)).Nodup := by
  induction l with
  | nil => intro m h; exact h
  | cons p l ih => intro m h; exact ih (addPosting m p) (nodup_keysOf_addPosting h)

lemma nodup_keysOf_groupList (postings : List JobPosting) :
    (keysOf (groupList postings)).Nodup :=
  nodup_keysOf_foldl (eligible postings) [] (by simp [keysOf])

lemma mem_unique_of_nodup_keys {m : List ((String × Option String) × List ℤ)}
    {k : String × Option String} {vs vs' : List ℤ} (h : (keysOf m).Nodup)
    (h1 : (k, vs) ∈ m) (h2 : (k, vs') ∈ m) : vs = vs' := by
  induction m with
  | nil => cases h1
  | cons kv rest ih =>
    simp only [keysOf, List.map_cons, List.nodup_cons] at h
    rcases List.mem_cons.mp h1 with he1 | he1 <;> rcases List.mem_cons.mp h2 with he2 | he2
    · exact by simpa using he1.trans he2.symm
    · exfalso
      apply h.1
      rw [← he1]
      exact List.mem_map_of_mem (fun kv => kv.1) he2
    · exfalso
      apply h.1
      rw [← he2]
      exact List.mem_map_of_mem (fun kv => kv.1) he1
    · exact ih h.2 he1 he2

/-! Structure of repeated primary-key upserts -/

lemma foldl_lastWrite_init (i : String) (rs : List StatsRecord) (a : Option StatsRecord) :
    rs.foldl (fun acc r => if r.id = i then some r else acc) a =
      match lastWrite rs i with
      | some y => some y
      | none => a := by
  induction rs generalizing a with
  | nil => simp [lastWrite]
  | cons r rs ih =>
    show rs.foldl _ (if r.id = i then some r else a) = _
    rw [ih]
    have hc : lastWrite (r :: rs) i =
        rs.foldl (fun acc r => if r.id = i then some r else acc)
          (if r.id = i then some r else none) := rfl
    rw [hc, ih]
    cases lastWrite rs i with
    | some y => rfl
    | none => by_cases hr : r.id = i <;> simp [hr]

lemma lastWrite_cons (r : StatsRecord) (rs : List StatsRecord) (i : String) :
    lastWrite (r :: rs) i =
      match lastWrite rs i with
      | some y => some y
      | none => if r.id = i then some r else none := by
  show rs.foldl _ (if r.id = i then some r else none) = _
  rw [foldl_lastWrite_init]

lemma lastWrite_id {recs : List StatsRecord} {i : String} {y : StatsRecord}
    (h : lastWrite recs i = some y) : y.id = i := by
  induction recs with
  | nil => simp [lastWrite] at h
  | cons r rs ih =>
    rw [lastWrite_cons] at h
    cases hlw : lastWrite rs i with
    | some y' =>
      rw [hlw] at h
      cases h
      exact ih hlw
    | none =>
      rw [hlw] at h
      by_cases hr : r.id = i
      · rw [if_pos hr] at h
        cases h
        exact hr
      · rw [if_neg hr] at h
        cases h

lemma lastWrite_mem {recs : List StatsRecord} {i : String} {y : StatsRecord}
    (h : lastWrite recs i = some y) : y ∈ recs := by
  induction recs with
  | nil => simp [lastWrite] at h
  | cons r rs ih =>
    rw [lastWrite_cons] at h
    cases hlw : lastWrite rs i with
    | some y' =>
      rw [hlw] at h
      cases h
      exact List.mem_cons_of_mem r (ih hlw)
    | none =>
      rw [hlw] at h
      by_cases hr : r.id = i
      · rw [if_pos hr] at h
        cases h
        exact List.mem_cons_self _ _
      · rw [if_neg hr] at h
        cases h

lemma patch_id (recs : List StatsRecord) (x : StatsRecord) : (patch recs x).id = x.id := by
  unfold patch
  cases hlw : lastWrite recs x.id with
  | none => rfl
  | some y => exact lastWrite_id hlw

lemma patch_nil (x : StatsRecord) : patch [] x = x := rfl

lemma patch_cons_of_eq {x r : StatsRecord} (rs : List StatsRecord) (hx : x.id = r.id) :
    patch (r :: rs) x = patch rs r := by
  unfold patch
  rw [hx, lastWrite_cons]
  cases hlw : lastWrite rs r.id with
  | some y => simp
  | none => simp

lemma patch_cons_of_ne {x r : StatsRecord} (rs : List StatsRecord) (hx : x.id ≠ r.id) :
    patch (r :: rs) x = patch rs x := by
  unfold patch
  rw [lastWrite_cons]
  cases hlw : lastWrite rs x.id with
  | some y => simp
  | none =>
    rw [if_neg fun h => hx h.symm]

lemma upsert_of_mem {s : List StatsRecord} {r : StatsRecord}
    (h : r.id ∈ s.map fun x => x.id) :
    upsert s r = s.map fun x => if x.id = r.id then r else x := by
  rw [upsert, if_pos h]

lemma upsert_of_not_mem {s : List StatsRecord} {r : StatsRecord}
    (h : ¬ r.id ∈ s.map fun x => x.id) : upsert s r = s ++ [r] := by
  rw [upsert, if_neg h]

/-- Folding `upsert` patches every existing row in place and appends the fresh ids. -/
theorem foldl_upsert_eq (recs : List StatsRecord) :
    ∀ s : List StatsRecord,
      recs.foldl upsert s = s.map (patch recs) ++ newOnes (s.map fun x => x.id) recs := by
  induction recs with
  | nil =>
    intro s
    simp only [List.foldl_nil, newOnes, List.append_nil]
    rw [show s.map (patch []) = s.map id from List.map_congr_left fun x _ => patch_nil x,
      List.map_id]
  | cons r rs ih =>
    intro s
    rw [List.foldl_cons, ih (upsert s r)]
    by_cases h : r.id ∈ s.map fun x => x.id
    · rw [upsert_of_mem h]
      have hids : ((s.map fun x => if x.id = r.id then r else x).map fun x => x.id) =
          s.map fun x => x.id := by
        rw [List.map_map]
        apply List.map_congr_left
        intro x _
        by_cases hx : x.id = r.id <;> simp [hx]
      have hpatch : ((s.map fun x => if x.id = r.id then r else x).map (patch rs)) =
          s.map (patch (r :: rs)) := by
        rw [List.map_map]
        apply List.map_congr_left
        intro x _
        by_cases hx : x.id = r.id
        · simp only [Function.comp_apply, if_pos hx]
          exact (patch_cons_of_eq rs hx).symm
        · simp only [Function.comp_apply, if_neg hx]
          exact (patch_cons_of_ne rs hx).symm
      rw [hids, hpatch, show newOnes (s.map fun x => x.id) (r :: rs) =
        newOnes (s.map fun x => x.id) rs from by rw [newOnes, if_pos h]]
    · rw [upsert_of_not_mem h]
      have hpatch : (s.map (patch rs)) = s.map (patch (r :: rs)) := by
        apply List.map_congr_left
        intro x hx
        have hxid : x.id ≠ r.id := by
          intro he
          exact h (he ▸ List.mem_map_of_mem (fun x => x.id) hx)
        exact (patch_cons_of_ne rs hxid).symm
      rw [List.map_append, List.map_append, hpatch,
        show newOnes (s.map fun x => x.id) (r :: rs) =
          patch rs r :: newOnes ((s.map fun x => x.id) ++ [r.id]) rs from by
            rw [newOnes, if_neg h],
        List.map_singleton, List.map_singleton, List.append_assoc, List.singleton_append]

lemma newOnes_lastWrite (recs : List StatsRecord) :
    ∀ (own : List String) (e : StatsRecord), e ∈ newOnes own recs →
      lastWrite recs e.id = some e := by
  induction recs with
  | nil =>
    intro own e he
    simp [newOnes] at he
  | cons r rs ih =>
    intro own e he
    rw [newOnes] at he
    by_cases hr : r.id ∈ own
    · rw [if_pos hr] at he
      rw [lastWrite_cons, ih own e he]
    · rw [if_neg hr] at he
      rcases List.mem_cons.mp he with he1 | he1
      · subst he1
        rw [lastWrite_cons, patch_id]
        cases hlw : lastWrite rs r.id with
        | some y => simp [patch, hlw]
        | none => simp [patch, hlw]
      · rw [lastWrite_cons, ih (own ++ [r.id]) e he1]

lemma newOnes_covers (recs : List StatsRecord) :
    ∀ (own : List String) (r : StatsRecord), r ∈ recs →
      r.id ∈ own ∨ r.id ∈ (newOnes own recs).map fun x => x.id := by
  induction recs with
  | nil =>
    intro own r hr
    cases hr
  | cons r0 rs ih =>
    intro own r hr
    rw [newOnes]
    by_cases h0 : r0.id ∈ own
    · rw [if_pos h0]
      rcases List.mem_cons.mp hr with rfl | hr'
      · exact Or.inl h0
      · exact ih own r hr'
    · rw [if_neg h0]
      rcases List.mem_cons.mp hr with rfl | hr'
      · right
        rw [List.map_cons, patch_id]
        exact List.mem_cons_self _ _
      · rcases ih (own ++ [r0.id]) r hr' with h | h
        · rcases List.mem_append.mp h with h | h
          · exact Or.inl h
          · right
            rw [List.map_cons, patch_id, List.mem_singleton.mp h]
            exact List.mem_cons_self _ _
        · right
          rw [List.map_cons, patch_id]
          exact List.mem_cons_of_mem _ h

lemma newOnes_eq_nil (recs : List StatsRecord) :
    ∀ own : List String, (∀ r ∈ recs, r.id ∈ own) → newOnes own recs = [] := by
  induction recs with
  | nil => intro own _; rfl
  | cons r rs ih =>
    intro own h
    rw [newOnes, if_pos (h r (List.mem_cons_self _ _))]
    exact ih own fun x hx => h x (List.mem_cons_of_mem _ hx)

lemma nodup_own_newOnes (recs : List StatsRecord) :
    ∀ own : List String, own.Nodup →
      (own ++ (newOnes own recs).map fun x => x.id).Nodup := by
  induction recs with
  | nil =>
    intro own h
    simpa [newOnes] using h
  | cons r rs ih =>
    intro own h
    rw [newOnes]
    by_cases h0 : r.id ∈ own
    · rw [if_pos h0]
      exact ih own h
    · rw [if_neg h0, List.map_cons, patch_id]
      have h2 := ih (own ++ [r.id]) (by simp [List.nodup_append, h, h0])
      rwa [List.append_assoc, List.singleton_append] at h2

lemma map_id_foldl_upsert (s recs : List StatsRecord) :
    ((recs.foldl upsert s).map fun x => x.id) =
      (s.map fun x => x.id) ++ ((newOnes (s.map fun x => x.id) recs).map fun x => x.id) := by
  rw [foldl_upsert_eq, List.map_append, List.map_map]
  congr 1
  apply List.map_congr_left
  intro x _
  exact patch_id recs x

lemma nodup_ids_foldl_upsert {s : List StatsRecord} (recs : List StatsRecord)
    (h : (s.map fun x => x.id).Nodup) : ((recs.foldl upsert s).map fun x => x.id).Nodup := by
  rw [map_id_foldl_upsert]
  exact nodup_own_newOnes recs _ h

lemma patch_patch (recs : List StatsRecord) (x : StatsRecord) :
    patch recs (patch recs x) = patch recs x := by
  cases hlw : lastWrite recs x.id with
  | none =>
    have hx : patch recs x = x := by
      unfold patch
      rw [hlw]
      rfl
    rw [hx]
    exact hx
  | some y =>
    have hx : patch recs x = y := by
      unfold patch
      rw [hlw]
      rfl
    rw [hx]
    unfold patch
    rw [lastWrite_id hlw, hlw]
    rfl

lemma patch_newOnes_mem {recs : List StatsRecord} {own : List String} {e : StatsRecord}
    (hmem : e ∈ newOnes own recs) : patch recs e = e := by
  unfold patch
  rw [newOnes_lastWrite recs own e hmem]
  rfl

/-- Re-applying the same batch of upserts leaves the store unchanged. -/
theorem foldl_upsert_idem (s recs : List StatsRecord) :
    recs.foldl upsert (recs.foldl upsert s) = recs.foldl upsert s := by
  have hcover : ∀ r ∈ recs, r.id ∈ (recs.foldl upsert s).map fun x => x.id := by
    intro r hr
    rw [map_id_foldl_upsert]
    rcases newOnes_covers recs (s.map fun x => x.id) r hr with h | h
    · exact List.mem_append_left _ h
    · exact List.mem_append_right _ h
  rw [foldl_upsert_eq recs (recs.foldl upsert s), newOnes_eq_nil recs _ hcover,
    List.append_nil, foldl_upsert_eq recs s, List.map_append, List.map_map]
  congr 1
  · apply List.map_congr_left
    intro x _
    exact patch_patch recs x
  · have hid : (newOnes (s.map fun x => x.id) recs).map (patch recs) =
        (newOnes (s.map fun x => x.id) recs).map id := by
      apply List.map_congr_left
      intro e he
      exact patch_newOnes_mem he
    rw [hid, List.map_id]

lemma mem_foldl_upsert_nil {recs : List StatsRecord} {e : StatsRecord}
    (h : e ∈ recs.foldl upsert []) : e ∈ recs := by
  rw [foldl_upsert_eq] at h
  simp only [List.map_nil, List.nil_append] at h
  exact lastWrite_mem (newOnes_lastWrite recs _ e h)

lemma id_preserved_foldl_upsert {s : List StatsRecord} (recs : List StatsRecord)
    {x : StatsRecord} (hx : x ∈ s) : ∃ y ∈ recs.foldl upsert s, y.id = x.id := by
  refine ⟨patch recs x, ?_, patch_id recs x⟩
  rw [foldl_upsert_eq]
  exact List.mem_append_left _ (List.mem_map_of_mem _ hx)

/-! Lookup characterization -/

lemma lookup_found {store : List StatsRecord} {j : String} {cc : Option String}
    {r : StatsRecord} (h : get_days_to_hire_stats store j cc = .found r) :
    r ∈ store ∧ r.standard_job_id = j ∧ r.country_code = normCC cc := by
  unfold get_days_to_hire_stats at h
  rcases hrows : store.filter fun x =>
      decide (x.standard_job_id = j) && decide (x.country_code = normCC cc) with _ | ⟨a, tl⟩
  · rw [hrows] at h
    simp at h
  · rcases tl with _ | ⟨b, tl2⟩
    · rw [hrows] at h
      have har : a = r := by
        cases h
        rfl
      have hmem : a ∈ store.filter fun x =>
          decide (x.standard_job_id = j) && decide (x.country_code = normCC cc) := by
        rw [hrows]
        exact List.mem_cons_self _ _
      rw [List.mem_filter] at hmem
      obtain ⟨hmem, hpred⟩ := hmem
      simp only [Bool.and_eq_true, decide_eq_true_eq] at hpred
      exact har ▸ ⟨hmem, hpred.1, hpred.2⟩
    · rw [hrows] at h
      simp at h

lemma lookup_notFound {store : List StatsRecord} {j : String} {cc : Option String}
    (h : ∀ r ∈ store, ¬ (r.standard_job_id = j ∧ r.country_code = normCC cc)) :
    get_days_to_hire_stats store j cc =
      .notFound ("No statistics found for standard_job_id=" ++ j ++
        " and country_code=" ++ orWorld cc) := by
  unfold get_days_to_hire_stats
  have hrows : (store.filter fun x =>
      decide (x.standard_job_id = j) && decide (x.country_code = normCC cc)) = [] := by
    rw [List.filter_eq_nil_iff]
    intro x hx
    simp only [Bool.and_eq_true, decide_eq_true_eq]
    exact fun hc => h x hx hc
  rw [hrows]

/-! Evaluating the rational percentile band over integer values -/

lemma retained_eq_int_filter (values : List ℤ) (pmin pmax : ℚ) :
    retained values pmin pmax =
      values.filter fun v =>
        decide (⌈percentile values pmin⌉ ≤ v) && decide (v ≤ ⌊percentile values pmax⌋) := by
  unfold retained
  apply List.filter_congr
  intro v _
  congr 1
  · rw [decide_eq_decide]
    exact (Int.ceil_le).symm
  · rw [decide_eq_decide]
    exact (Int.le_floor).symm

lemma retained_concrete (a b : ℤ) {values : List ℤ} {pmin pmax : ℚ}
    (ha : ⌈percentile values pmin⌉ = a) (hb : ⌊percentile values pmax⌋ = b) :
    retained values pmin pmax =
      values.filter fun v => decide (a ≤ v) && decide (v ≤ b) := by
  rw [retained_eq_int_filter, ha, hb]

/-! The end-to-end example dataset -/

lemma c2_percentile10 : percentile [10, 12, 11, 13, 9, 14, 10, 12, 11, 100] 10 = 99 / 10 := by
  norm_num [percentile, List.insertionSort, List.orderedInsert]

lemma c2_percentile90 : percentile [10, 12, 11, 13, 9, 14, 10, 12, 11, 100] 90 = 113 / 5 := by
  norm_num [percentile, List.insertionSort, List.orderedInsert,
    show Int.toNat 8 = 8 from rfl, show (8 + 1 : ℕ) ⊓ 9 = 9 from rfl]

lemma c2_retained :
    retained [10, 12, 11, 13, 9, 14, 10, 12, 11, 100] 10 90 =
      [10, 12, 11, 13, 14, 10, 12, 11] := by
  rw [retained_concrete 10 22 (by rw [c2_percentile10, Int.ceil_eq_iff]; norm_num)
    (by rw [c2_percentile90]; norm_num)]
  decide

lemma c2_cps :
    calculate_percentile_stats [10, 12, 11, 13, 9, 14, 10, 12, 11, 100] 10 90 =
      (some 10, some 14, some 11, 8) := by
  rw [cps_of_retained_ne (by rw [c2_retained]; decide), c2_retained]
  have hmean : intTrunc (ratMean [10, 12, 11, 13, 14, 10, 12, 11]) = 11 := by
    norm_num [intTrunc, ratMean, List.sum_cons, List.sum_nil]
  rw [hmean]
  decide

lemma c2_group :
    groupAll c2Postings 1000 =
      [(("SJ1", none), [10, 12, 11, 13, 9, 14, 10, 12, 11, 100])] := by
  decide

lemma c2_records : recordsToWrite (groupAll c2Postings 1000) 5 = [c2Record] := by
  rw [c2_group]
  simp only [recordsToWrite, List.filterMap_cons, List.filterMap_nil, c2_cps]
  norm_num [statsRecordOf, c2Record]
  decide

lemma c2_run : calculate_stats [] c2Postings 5 1000 = [c2Record] := by
  unfold calculate_stats
  rw [c2_records]
  decide

/-! A degenerate two-value group retains nothing -/

lemma c7_percentile10 : percentile [0, 10] 10 = 1 := by
  norm_num [percentile, List.insertionSort, List.orderedInsert]

lemma c7_percentile90 : percentile [0, 10] 90 = 9 := by
  norm_num [percentile, List.insertionSort, List.orderedInsert]

lemma c7_retained : retained [0, 10] 10 90 = [] := by
  rw [retained_concrete 1 9 (by rw [c7_percentile10, Int.ceil_eq_iff]; norm_num)
    (by rw [c7_percentile90]; norm_num)]
  decide

lemma c7_cps : calculate_percentile_stats [0, 10] 10 90 = (none, none, none, 0) :=
  cps_of_retained_nil c7_retained

lemma c7_run : calculate_stats [] c7Postings 0 1000 = [c7Record] := by
  unfold calculate_stats
  have hg : groupAll c7Postings 1000 = [(("SJ1", none), [0, 10])] := by decide
  rw [hg]
  simp only [recordsToWrite, List.filterMap_cons, List.filterMap_nil, c7_cps]
  norm_num [statsRecordOf, c7Record]
  decide

/-! Which records reach the persistence sink -/

lemma recordsToWrite_mem {m : List ((String × Option String) × List ℤ)} {min_job_postings : ℤ}
    {r : StatsRecord} (h : r ∈ recordsToWrite m min_job_postings) :
    ∃ kv ∈ m, ¬ ((calculate_percentile_stats kv.2 10 90).2.2.2 : ℤ) < min_job_postings ∧
      r = statsRecordOf kv.1 (calculate_percentile_stats kv.2 10 90) := by
  unfold recordsToWrite at h
  rw [List.mem_filterMap] at h
  obtain ⟨kv, hkv, hr⟩ := h
  by_cases hc : ((calculate_percentile_stats kv.2 10 90).2.2.2 : ℤ) < min_job_postings
  · rw [if_pos hc] at hr
    cases hr
  · rw [if_neg hc] at hr
    cases hr
    exact ⟨kv, hkv, hc, rfl⟩

lemma recordsToWrite_of_mem {m : List ((String × Option String) × List ℤ)}
    {min_job_postings : ℤ} {kv : (String × Option String) × List ℤ} (hkv : kv ∈ m)
    (hc : ¬ ((calculate_percentile_stats kv.2 10 90).2.2.2 : ℤ) < min_job_postings) :
    statsRecordOf kv.1 (calculate_percentile_stats kv.2 10 90) ∈
      recordsToWrite m min_job_postings := by
  unfold recordsToWrite
  rw [List.mem_filterMap]
  exact ⟨kv, hkv, by rw [if_neg hc]⟩

/-! Claims -/

/-- C1: for every non-empty input, the trimmer bounds `low_bound`/`high_bound` are the 10th
and 90th percentiles of the full untrimmed input under the linear-interpolation
semantics (`rank = p/100 * (n-1)`, interpolation between adjacent sorted order
statistics); the retention keeps exactly the values inside the inclusive band; and on a
non-empty retention the result is `(min, max, mean truncated toward zero, count)` of the
retained values. -/
theorem C1_trimmer_follows_spec (values : List ℤ) (h : values ≠ []) :
    percentile values 10 = specPercentile values 10 ∧
    percentile values 90 = specPercentile values 90 ∧
    (∀ v : ℤ, v ∈ retained values 10 90 ↔
      v ∈ values ∧ percentile values 10 ≤ (v : ℚ) ∧ (v : ℚ) ≤ percentile values 90) ∧
    (retained values 10 90 ≠ [] →
      calculate_percentile_stats values 10 90 =
        (some (listMin (retained values 10 90)), some (listMax (retained values 10 90)),
         some (intTrunc (ratMean (retained values 10 90))),
         (retained values 10 90).length)) := by
  refine ⟨percentile_eq_spec h (by norm_num) (by norm_num),
    percentile_eq_spec h (by norm_num) (by norm_num), ?_, fun hf => cps_of_retained_ne hf⟩
  intro v
  unfold retained
  rw [List.mem_filter]
  simp [Bool.and_eq_true, decide_eq_true_eq, and_assoc]

/-- C1 witness: the theorem applied to the concrete input `[1, 2, 3]`. -/
theorem C1_trimmer_follows_spec_witness :
    percentile [1, 2, 3] 10 = specPercentile [1, 2, 3] 10 ∧
    percentile [1, 2, 3] 90 = specPercentile [1, 2, 3] 90 :=
  ⟨(C1_trimmer_follows_spec [1, 2, 3] (by decide)).1,
   (C1_trimmer_follows_spec [1, 2, 3] (by decide)).2.1⟩

/-- C2 counterexample: on the end-to-end example of the spec the pipeline persists no record
with `min_days_to_hire = 9` — the 10th-percentile bound is `9.9`, so the value `9` is
trimmed as well and the persisted minimum is `10`. -/
theorem C2_counterexample :
    ¬ ∃ r ∈ calculate_stats [] c2Postings 5 1000, r.min_days_to_hire = some 9 := by
  rw [c2_run]
  decide

/-- C2 (amended): on the end-to-end example the pipeline persists exactly the single
record `SJ1_world` with `min_days_to_hire = 10`, `max_days_to_hire = 14`,
`avg_days_to_hire = 11`, `job_posting_count = 8`, and `min ≤ avg ≤ max`. -/
theorem C2_end_to_end_example :
    calculate_stats [] c2Postings 5 1000 =
      [⟨"SJ1_world", "SJ1", none, some 10, some 14, some 11, 8⟩] ∧
    (10 : ℤ) ≤ 11 ∧ (11 : ℤ) ≤ 14 :=
  ⟨c2_run, by decide, by decide⟩

/-- C3: the trimmer returns the all-null/zero sentinel exactly when the input is empty or
the inclusive band retains nothing, and in every other case all three statistics are
non-null with a positive count (the embedding is a total function, so no exception is
possible). -/
theorem C3_sentinel_exactly (values : List ℤ) (pmin pmax : ℚ) :
    (calculate_percentile_stats values pmin pmax = (none, none, none, 0) ↔
      values = [] ∨ retained values pmin pmax = []) ∧
    (values ≠ [] → retained values pmin pmax ≠ [] →
      ∃ a b c, calculate_percentile_stats values pmin pmax =
        (some a, some b, some c, (retained values pmin pmax).length) ∧
        0 < (retained values pmin pmax).length) := by
  refine ⟨cps_sentinel_iff values pmin pmax, fun _ hf => ?_⟩
  exact ⟨listMin (retained values pmin pmax), listMax (retained values pmin pmax),
    intTrunc (ratMean (retained values pmin pmax)), cps_of_retained_ne hf,
    List.length_pos.mpr hf⟩

/-- C3 witness: the sentinel on the empty input, and the fully non-null tuple on
`[1, 2, 3]` (whose band retains `[2]`). -/
theorem C3_sentinel_exactly_witness :
    calculate_percentile_stats [] 10 90 = (none, none, none, 0) ∧
    ∃ a b c, calculate_percentile_stats [1, 2, 3] 10 90 =
      (some a, some b, some c, (retained [1, 2, 3] 10 90).length) ∧
      0 < (retained [1, 2, 3] 10 90).length := by
  have hp10 : percentile [1, 2, 3] 10 = 6 / 5 := by
    norm_num [percentile, List.insertionSort, List.orderedInsert]
  have hp90 : percentile [1, 2, 3] 90 = 14 / 5 := by
    norm_num [percentile, List.insertionSort, List.orderedInsert]
  have hceil : ⌈percentile [1, 2, 3] 10⌉ = 2 := by
    rw [hp10, Int.ceil_eq_iff]
    norm_num
  have hfloor : ⌊percentile [1, 2, 3] 90⌋ = 2 := by
    rw [hp90]
    norm_num
  constructor
  · exact (C3_sentinel_exactly [] 10 90).1.mpr (Or.inl rfl)
  · refine (C3_sentinel_exactly [1, 2, 3] 10 90).2 (by decide) ?_
    rw [retained_concrete 2 2 hceil hfloor]
    decide

/-- C4: for any positive page sizes the chunked grouping is independent of the page size,
and the multiset of all bucketed values equals the multiset of the eligible input
durations — nothing dropped, nothing duplicated. -/
theorem C4_grouping_exhaustive (postings : List JobPosting) (c₁ c₂ : ℕ)
    (h1 : 0 < c₁) (h2 : 0 < c₂) :
    groupAll postings c₁ = groupAll postings c₂ ∧
    (valuesOf (groupAll postings c₁) : Multiset ℤ) =
      (durations (eligible postings) : Multiset ℤ) := by
  constructor
  · rw [groupAll_eq_groupList h1, groupAll_eq_groupList h2]
  · rw [groupAll_eq_groupList h1]
    exact Multiset.coe_eq_coe.mpr (valuesOf_groupList postings)

/-- C4 witness: the theorem applied with page sizes `1` and `7` to a four-posting
dataset containing one `NULL` duration. -/
theorem C4_grouping_exhaustive_witness :
    groupAll [⟨"SJ1", none, some 10⟩, ⟨"SJ1", none, some 12⟩, ⟨"SJ2", some "US", some 7⟩,
        ⟨"SJ1", none, none⟩] 1 =
      groupAll [⟨"SJ1", none, some 10⟩, ⟨"SJ1", none, some 12⟩, ⟨"SJ2", some "US", some 7⟩,
        ⟨"SJ1", none, none⟩] 7 :=
  (C4_grouping_exhaustive _ 1 7 (by decide) (by decide)).1

/-- C5: per group of the pipeline: below the threshold no record carrying the key of the group is
written and every pre-existing row keeps a row with its id; at or above the threshold a
record with the deterministic id `mkId k` is written and the final store holds exactly
one row with that id. -/
theorem C5_threshold_gate (postings : List JobPosting) (store : List StatsRecord)
    (min_job_postings : ℤ) (chunk_size : ℕ) (k : String × Option String) (vs : List ℤ)
    (hc : 0 < chunk_size) (hnd : (store.map fun x => x.id).Nodup)
    (hmem : (k, vs) ∈ groupAll postings chunk_size) :
    (((calculate_percentile_stats vs 10 90).2.2.2 : ℤ) < min_job_postings →
      (∀ r ∈ recordsToWrite (groupAll postings chunk_size) min_job_postings,
        ¬ (r.standard_job_id = k.1 ∧ r.country_code = k.2)) ∧
      (∀ x ∈ store, ∃ y ∈ calculate_stats store postings min_job_postings chunk_size,
        y.id = x.id)) ∧
    (min_job_postings ≤ ((calculate_percentile_stats vs 10 90).2.2.2 : ℤ) →
      (∃ r ∈ recordsToWrite (groupAll postings chunk_size) min_job_postings,
        r.id = mkId k ∧ r.standard_job_id = k.1 ∧ r.country_code = k.2) ∧
      ((calculate_stats store postings min_job_postings chunk_size).map
          fun x => x.id).count (mkId k) = 1) := by
  have hnodupkeys : (keysOf (groupAll postings chunk_size)).Nodup := by
    rw [groupAll_eq_groupList hc]
    exact nodup_keysOf_groupList postings
  constructor
  · intro hlt
    constructor
    · rintro r hr ⟨hsj, hcc⟩
      obtain ⟨kv, hkv, hcnt, hrec⟩ := recordsToWrite_mem hr
      have hk : kv.1 = k := by
        have h1 : r.standard_job_id = kv.1.1 := by rw [hrec]; rfl
        have h2 : r.country_code = kv.1.2 := by rw [hrec]; rfl
        have := h1 ▸ hsj
        have := h2 ▸ hcc
        exact Prod.ext (h1 ▸ hsj).symm (h2 ▸ hcc).symm |>.symm ▸ rfl
      have hkv' : (k, kv.2) ∈ groupAll postings chunk_size := by
        have : kv = (k, kv.2) := by rw [← hk]
        exact this ▸ hkv
      have hvs : kv.2 = vs := mem_unique_of_nodup_keys hnodupkeys hkv' hmem
      rw [hvs] at hcnt
      exact hcnt hlt
    · intro x hx
      exact id_preserved_foldl_upsert _ hx
  · intro hge
    have hnotlt : ¬ ((calculate_percentile_stats vs 10 90).2.2.2 : ℤ) < min_job_postings :=
      not_lt.mpr hge
    have hw := recordsToWrite_of_mem hmem hnotlt
    refine ⟨⟨statsRecordOf k (calculate_percentile_stats vs 10 90), hw, rfl, rfl, rfl⟩, ?_⟩
    have hmemid : mkId k ∈ (calculate_stats store postings min_job_postings chunk_size).map
        fun x => x.id := by
      unfold calculate_stats
      rw [map_id_foldl_upsert]
      have hidk : (statsRecordOf k (calculate_percentile_stats vs 10 90)).id = mkId k := rfl
      rcases newOnes_covers _ (store.map fun x => x.id) _ hw with hcase | hcase
      · exact List.mem_append_left _ (hidk ▸ hcase)
      · exact List.mem_append_right _ (hidk ▸ hcase)
    have hnodup : ((calculate_stats store postings min_job_postings chunk_size).map
        fun x => x.id).Nodup := nodup_ids_foldl_upsert _ hnd
    exact List.count_eq_one_of_mem hnodup hmemid

/-- C5 witness: the theorem applied to the example dataset (threshold met,
`8 ≥ 5`), starting from the empty store. -/
theorem C5_threshold_gate_witness :
    (∃ r ∈ recordsToWrite (groupAll c2Postings 1000) 5,
      r.id = mkId ("SJ1", none) ∧ r.standard_job_id = "SJ1" ∧ r.country_code = none) ∧
    ((calculate_stats [] c2Postings 5 1000).map fun x => x.id).count (mkId ("SJ1", none)) = 1 :=
  (C5_threshold_gate c2Postings [] 5 1000 ("SJ1", none)
      [10, 12, 11, 13, 9, 14, 10, 12, 11, 100] (by decide) (by decide) (by decide)).2
    (by rw [c2_cps]; decide)

/-- C6: running the pipeline a second time over unchanged postings leaves the persisted
store exactly as after the first run — the same records are upserted onto their own ids. -/
theorem C6_pipeline_idempotent (store : List StatsRecord) (postings : List JobPosting)
    (min_job_postings : ℤ) (chunk_size : ℕ) (_hc : 0 < chunk_size) :
    calculate_stats (calculate_stats store postings min_job_postings chunk_size) postings
        min_job_postings chunk_size =
      calculate_stats store postings min_job_postings chunk_size := by
  unfold calculate_stats
  exact foldl_upsert_idem store _

/-- C6 witness: the theorem applied to the example dataset and page size `1000`. -/
theorem C6_pipeline_idempotent_witness :
    calculate_stats (calculate_stats [] c2Postings 5 1000) c2Postings 5 1000 =
      calculate_stats [] c2Postings 5 1000 :=
  C6_pipeline_idempotent [] c2Postings 5 1000 (by decide)

/-- C7 counterexample: with `min_job_postings = 0` the degenerate group `[0, 10]`
(whose percentile band `[1, 9]` retains nothing) IS persisted, as an all-null record —
the claim, never persisted for every value of min_count, fails at `min_count = 0`. -/
theorem C7_counterexample :
    ∃ r ∈ calculate_stats [] c7Postings 0 1000,
      r.min_days_to_hire = none ∧ r.max_days_to_hire = none ∧
      r.avg_days_to_hire = none ∧ r.job_posting_count = 0 := by
  rw [c7_run]
  decide

/-- C7 (amended): every record the pipeline persists satisfies
`min ≤ avg ≤ max` whenever all three are non-null; the three statistics are null only
together and only with a zero trimmed count; and for every `min_count ≥ 1` (rather than
every `min_count`) a zero-trimmed group is never persisted. -/
theorem C7_record_invariant (postings : List JobPosting) (min_job_postings : ℤ)
    (chunk_size : ℕ) (_hc : 0 < chunk_size) :
    ∀ r ∈ calculate_stats [] postings min_job_postings chunk_size,
      (∀ a b c, r.min_days_to_hire = some a → r.max_days_to_hire = some b →
        r.avg_days_to_hire = some c → a ≤ c ∧ c ≤ b) ∧
      ((r.min_days_to_hire = none ∨ r.max_days_to_hire = none ∨
          r.avg_days_to_hire = none) →
        r.min_days_to_hire = none ∧ r.max_days_to_hire = none ∧
          r.avg_days_to_hire = none ∧ r.job_posting_count = 0) ∧
      (1 ≤ min_job_postings →
        ∃ a b c, r.min_days_to_hire = some a ∧ r.max_days_to_hire = some b ∧
          r.avg_days_to_hire = some c) := by
  intro r hr
  have hr' : r ∈ recordsToWrite (groupAll postings chunk_size) min_job_postings :=
    mem_foldl_upsert_nil hr
  obtain ⟨kv, hkv, hcnt, hrec⟩ := recordsToWrite_mem hr'
  by_cases hf : retained kv.2 10 90 = []
  · have hcps : calculate_percentile_stats kv.2 10 90 = (none, none, none, 0) :=
      cps_of_retained_nil hf
    have hmin : r.min_days_to_hire = none := by rw [hrec, hcps]; rfl
    have hmax : r.max_days_to_hire = none := by rw [hrec, hcps]; rfl
    have havg : r.avg_days_to_hire = none := by rw [hrec, hcps]; rfl
    have hcnt0 : r.job_posting_count = 0 := by rw [hrec, hcps]; rfl
    refine ⟨fun a b c ha _ _ => ?_, fun _ => ⟨hmin, hmax, havg, hcnt0⟩, fun hmin1 => ?_⟩
    · rw [hmin] at ha
      cases ha
    · exfalso
      apply hcnt
      rw [hcps]
      simp only []
      omega
  · have hcps := cps_of_retained_ne hf
    have hbounds := cps_some hcps
    have hmin : r.min_days_to_hire = some (listMin (retained kv.2 10 90)) := by
      rw [hrec, hcps]; rfl
    have hmax : r.max_days_to_hire = some (listMax (retained kv.2 10 90)) := by
      rw [hrec, hcps]; rfl
    have havg : r.avg_days_to_hire = some (intTrunc (ratMean (retained kv.2 10 90))) := by
      rw [hrec, hcps]; rfl
    refine ⟨fun a b c ha hb hc' => ?_, fun hnull => ?_, fun _ => ?_⟩
    · rw [hmin] at ha
      rw [hmax] at hb
      rw [havg] at hc'
      cases ha
      cases hb
      cases hc'
      exact ⟨hbounds.1, hbounds.2.1⟩
    · exfalso
      rcases hnull with h | h | h
      · rw [hmin] at h
        cases h
      · rw [hmax] at h
        cases h
      · rw [havg] at h
        cases h
    · exact ⟨listMin (retained kv.2 10 90), listMax (retained kv.2 10 90),
        intTrunc (ratMean (retained kv.2 10 90)), hmin, hmax, havg⟩

/-- C7 witness: the amended invariant instantiated on the example run, at its persisted
record, giving `10 ≤ 11 ∧ 11 ≤ 14`. -/
theorem C7_record_invariant_witness : (10 : ℤ) ≤ 11 ∧ (11 : ℤ) ≤ 14 := by
  have h := C7_record_invariant c2Postings 5 1000 (by decide)
    ⟨"SJ1_world", "SJ1", none, some 10, some 14, some 11, 8⟩
    (by rw [c2_run]; exact List.mem_cons_self _ _)
  exact h.1 10 14 11 rfl rfl rfl

/-- C8: the lookup is an exact-match point lookup: a found record lies in the store and
matches the requested job and the normalized country (absent country matches only null
country codes); when nothing matches — in particular on the empty store — it returns a
404 with its descriptive message, never a default record. -/
theorem C8_lookup_exact_match (store : List StatsRecord) (j : String) (cc : Option String) :
    (∀ r, get_days_to_hire_stats store j cc = .found r →
      r ∈ store ∧ r.standard_job_id = j ∧ r.country_code = normCC cc ∧
        (cc = none → r.country_code = none)) ∧
    ((∀ r ∈ store, ¬ (r.standard_job_id = j ∧ r.country_code = normCC cc)) →
      get_days_to_hire_stats store j cc =
        .notFound ("No statistics found for standard_job_id=" ++ j ++
          " and country_code=" ++ orWorld cc)) ∧
    (store = [] → get_days_to_hire_stats store j cc =
      .notFound ("No statistics found for standard_job_id=" ++ j ++
        " and country_code=" ++ orWorld cc)) := by
  refine ⟨fun r h => ?_, lookup_notFound, fun hst => ?_⟩
  · obtain ⟨hmem, hsj, hcc⟩ := lookup_found h
    exact ⟨hmem, hsj, hcc, fun hnone => by rw [hcc, hnone]; rfl⟩
  · subst hst
    exact lookup_notFound (fun r hr => by cases hr)

/-- C8 witness: lookup of `("SJ1", none)` on the empty store returns the 404 with its
message. -/
theorem C8_lookup_exact_match_witness :
    get_days_to_hire_stats [] "SJ1" none =
      .notFound "No statistics found for standard_job_id=SJ1 and country_code=world" :=
  (C8_lookup_exact_match [] "SJ1" none).2.2 rfl

/-- C9: on every non-empty input the trimmed count never exceeds the input length, and
a positive count comes with fully non-null statistics satisfying `min ≤ mean ≤ max`
(mean truncated to an integer). -/
theorem C9_count_and_bounds (values : List ℤ) (_hne : values ≠ []) :
    (calculate_percentile_stats values 10 90).2.2.2 ≤ values.length ∧
    (0 < (calculate_percentile_stats values 10 90).2.2.2 →
      ∃ a b c, calculate_percentile_stats values 10 90 =
        (some a, some b, some c, (calculate_percentile_stats values 10 90).2.2.2) ∧
        a ≤ c ∧ c ≤ b) := by
  by_cases hf : retained values 10 90 = []
  · rw [cps_of_retained_nil hf]
    exact ⟨Nat.zero_le _, fun hpos => absurd hpos (by simp)⟩
  · have hcps := cps_of_retained_ne hf
    have hbounds := cps_some hcps
    rw [hcps]
    exact ⟨hbounds.2.2.2, fun _ => ⟨listMin (retained values 10 90),
      listMax (retained values 10 90), intTrunc (ratMean (retained values 10 90)),
      rfl, hbounds.1, hbounds.2.1⟩⟩

/-- C9 witness: the theorem applied to the example value list. -/
theorem C9_count_and_bounds_witness :
    (calculate_percentile_stats [10, 12, 11, 13, 9, 14, 10, 12, 11, 100] 10 90).2.2.2 ≤ 10 :=
  (C9_count_and_bounds [10, 12, 11, 13, 9, 14, 10, 12, 11, 100] (by decide)).1

/-- C10: a lookup with the empty-string country code behaves exactly like a lookup with
the country absent (the code treats any falsy country as `None`), and therefore can never
return a record whose stored country code is the empty string. -/
theorem C10_empty_country_is_world (store : List StatsRecord) (j : String) :
    get_days_to_hire_stats store j (some "") = get_days_to_hire_stats store j none ∧
    ∀ r, get_days_to_hire_stats store j (some "") = .found r →
      r.country_code ≠ some "" := by
  constructor
  · unfold get_days_to_hire_stats
    rw [show normCC (some "") = normCC none from rfl,
      show orWorld (some "") = orWorld none from rfl]
  · intro r h
    have hcc := (lookup_found h).2.2
    rw [hcc]
    simp [normCC]

/-- C10 witness: the two lookups coincide on a store holding one world record and one
empty-string-country record. -/
theorem C10_empty_country_is_world_witness :
    get_days_to_hire_stats [⟨"SJ1_world", "SJ1", none, some 1, some 3, some 2, 5⟩,
        ⟨"SJ1_", "SJ1", some "", some 4, some 6, some 5, 5⟩] "SJ1" (some "") =
      get_days_to_hire_stats [⟨"SJ1_world", "SJ1", none, some 1, some 3, some 2, 5⟩,
        ⟨"SJ1_", "SJ1", some "", some 4, some 6, some 5, 5⟩] "SJ1" none :=
  (C10_empty_country_is_world _ "SJ1").1
